import Mathlib

/-!
Shallow embedding of the Gravshift game-logic core, translated from the
JavaScript sources:

* `src/GameStateManager.js` — tier computation, recycle, score/achievement
  engine, mission selection, reset.
* `src/ResourceSystem.js` — resource ledger (add/remove/afford/deduct/drain).
* `src/EffectsManager.js` — building placement validation.
* `src/GameEngine.js` — object pool.
* `src/main.js` — per-frame difficulty formula, `tryPlaceBuilding` caller.

JavaScript numbers are modelled as rationals (`ℚ`); machine floats carry no
overflow in the ranges exercised here and every constant in the sources is a
short decimal.  The mutually recursive `addScore`/`checkAchievements` pair is
embedded with an explicit fuel parameter (`checkA`); the stabilisation theorem
below shows the fuel is irrelevant once it exceeds the number of still-locked
achievements, which is the termination argument for the JS recursion.
-/

/-! ## GameStateManager.calculateTier (GameStateManager.js lines 244-256) -/

def calculateTier (mass : ℚ) : ℕ :=
  if mass < 3 then 1
  else if mass < 8 then 2
  else if mass < 18 then 3
  else if mass < 35 then 4
  else if mass < 60 then 5
  else if mass < 100 then 6
  else if mass < 150 then 7
  else 8

/-! ## ResourceSystem (ResourceSystem.js)

The ledger object has exactly the five keys below; `addResource` guards on
`type in this.resources`, which always holds for the modelled types, so the
guard is vacuous here.  A JS cost map is a list of key/amount entries with
pairwise-distinct keys. -/

inductive ResType where
  | plastic
  | metal
  | organic
  | seeds
  | oxygen
deriving DecidableEq

structure Resources where
  plastic : ℚ
  metal : ℚ
  organic : ℚ
  seeds : ℚ
  oxygen : ℚ
deriving DecidableEq

def getRes (r : Resources) : ResType → ℚ
  | .plastic => r.plastic
  | .metal => r.metal
  | .organic => r.organic
  | .seeds => r.seeds
  | .oxygen => r.oxygen

def setRes (r : Resources) : ResType → ℚ → Resources
  | .plastic, v => { r with plastic := v }
  | .metal, v => { r with metal := v }
  | .organic, v => { r with organic := v }
  | .seeds, v => { r with seeds := v }
  | .oxygen, v => { r with oxygen := v }

def initialResources : Resources :=
  { plastic := 0, metal := 0, organic := 0, seeds := 0, oxygen := 100 }

def addResource (r : Resources) (t : ResType) (amount : ℚ) : Resources :=
  setRes r t (getRes r t + amount)

def removeResource (r : Resources) (t : ResType) (amount : ℚ) : Resources × Bool :=
  if amount ≤ getRes r t then (setRes r t (getRes r t - amount), true)
  else (r, false)

def canAfford (r : Resources) (costs : List (ResType × ℚ)) : Bool :=
  costs.all fun c => decide (c.2 ≤ getRes r c.1)

def deductCosts (r : Resources) (costs : List (ResType × ℚ)) : Resources × Bool :=
  if canAfford r costs then
    (costs.foldl (fun acc c => (removeResource acc c.1 c.2).1) r, true)
  else (r, false)

def drainOxygen (r : Resources) (deltaTime drainRate : ℚ) : Resources :=
  setRes r .oxygen (max 0 (getRes r .oxygen - drainRate * deltaTime))

/-- Total amount a cost map charges against one resource key. -/
def amountFor (costs : List (ResType × ℚ)) (t : ResType) : ℚ :=
  ((costs.filter fun c => c.1 == t).map Prod.snd).sum

/-- All ledger balances are non-negative. -/
def NonnegLedger (r : Resources) : Prop := ∀ t, 0 ≤ getRes r t

/-! ## Mission catalog and selection (GameStateManager.js lines 101-189)

Selection reads only the id and difficulty fields, never the completion
closures, so those are omitted from the embedded record. -/

structure Mission where
  id : String
  difficulty : ℕ
  reward : ℕ
deriving DecidableEq

def getMissionsList : List Mission :=
  [ { id := "absorb_10", difficulty := 1, reward := 100 },
    { id := "reach_mass_3", difficulty := 1, reward := 150 },
    { id := "reach_tier_2", difficulty := 1, reward := 200 },
    { id := "absorb_50", difficulty := 2, reward := 300 },
    { id := "reach_mass_15", difficulty := 2, reward := 400 },
    { id := "reach_tier_4", difficulty := 3, reward := 500 },
    { id := "absorb_200", difficulty := 4, reward := 800 },
    { id := "reach_mass_100", difficulty := 5, reward := 1000 },
    { id := "reach_tier_8", difficulty := 6, reward := 2000 } ]

def missionAvailable (completedMissions : List String) (tier : ℕ) (m : Mission) : Bool :=
  !(completedMissions.contains m.id) && decide (m.difficulty ≤ tier)

def startNewMission (completedMissions : List String) (tier : ℕ) : Option Mission :=
  (getMissionsList.filter (missionAvailable completedMissions tier)).head?

/-! ## Game state and the achievement engine (GameStateManager.js)

`unlocked` is the per-achievement `unlocked` flag array (ten entries in the
source); `achCond i` is the i-th achievement condition closure.  The JS
`checkAchievements`/`addScore` pair is mutually recursive; `checkStep` is one
pass of the `forEach` loop with the nested `addScore` call abstracted, and
`checkA fuel` ties the knot with `fuel` bounding the cascade depth. -/

structure GState where
  score : ℚ
  mass : ℚ
  tier : ℕ
  currentMission : Option Mission
  completedMissions : List String
  unlocked : List Bool
  difficulty : ℚ
  timeElapsed : ℚ
  debrisAbsorbed : ℕ
deriving DecidableEq

def achCond (i : ℕ) (s : GState) : Bool :=
  match i with
  | 0 => decide (1 ≤ s.debrisAbsorbed)
  | 1 => decide (10 ≤ s.mass)
  | 2 => decide (50 ≤ s.mass)
  | 3 => decide (100 ≤ s.mass)
  | 4 => decide (3 ≤ s.tier)
  | 5 => decide (5 ≤ s.tier)
  | 6 => decide (1000 ≤ s.score)
  | 7 => decide (5000 ≤ s.score)
  | 8 => decide (300 ≤ s.timeElapsed)
  | 9 => decide (100 ≤ s.debrisAbsorbed)
  | _ => false

def numAch : ℕ := 10

/-- Number of still-locked achievements. -/
def lockedCount (s : GState) : ℕ := s.unlocked.count false

/-- The state right after achievement `i` fires, before the nested re-entry:
`achievement.unlocked = true` followed by the `this.score += points` line at
the top of `addScore(50)`. -/
def unlockBonus (s : GState) (i : ℕ) : GState :=
  { s with unlocked := s.unlocked.set i true, score := s.score + 50 }

/-- One pass of the `achievements.forEach` loop in `checkAchievements`
(GameStateManager.js lines 212-224): for each index still to visit, if the
flag is down and the condition holds, raise the flag, record the index in the
newly-unlocked batch, add the 50-point bonus and run the nested
re-entrant `checkAchievements` (abstracted as `nested`). -/
def checkStep (nested : GState → GState) : GState → List ℕ → GState × List ℕ
  | s, [] => (s, [])
  | s, i :: rest =>
    if !(s.unlocked.getD i true) && achCond i s then
      ((checkStep nested (nested (unlockBonus s i)) rest).1,
       i :: (checkStep nested (nested (unlockBonus s i)) rest).2)
    else
      checkStep nested s rest

/-- Fuel-indexed `checkAchievements`: each nested re-entry consumes one unit
of fuel.  The stabilisation theorem shows any fuel above `lockedCount`
gives the same answer, so the JS recursion terminates. -/
def checkA : ℕ → GState → GState × List ℕ
  | 0, s => (s, [])
  | fuel + 1, s => checkStep (fun t => (checkA fuel t).1) s (List.range numAch)

/-- `checkAchievements` (GameStateManager.js lines 212-224) with canonical
(sufficient) fuel. -/
def checkAchievements (s : GState) : GState × List ℕ :=
  checkA (lockedCount s + 1) s

/-- `addScore` (GameStateManager.js lines 267-270): add the points, then
re-evaluate achievements (result batch discarded). -/
def addScore (s : GState) (points : ℚ) : GState :=
  (checkAchievements { s with score := s.score + points }).1

/-- `recycle` (GameStateManager.js lines 272-283): no-op below mass 1;
otherwise remove `floor(mass * 0.25)`, floor the mass at 1, recompute the
tier, and award removed × 10 points through `addScore`. -/
def recycle (s : GState) : GState × ℚ :=
  if s.mass ≤ 1 then (s, 0)
  else
    (addScore
      { s with mass := max 1 (s.mass - (⌊s.mass * 0.25⌋ : ℚ)),
               tier := calculateTier (max 1 (s.mass - (⌊s.mass * 0.25⌋ : ℚ))) }
      ((⌊s.mass * 0.25⌋ : ℚ) * 10),
     (⌊s.mass * 0.25⌋ : ℚ) * 10)

/-- `reset` (GameStateManager.js lines 333-344): clears progression but keeps
the achievements array, then starts a new mission from the cleared state. -/
def reset (s : GState) : GState :=
  let s1 : GState := { score := 0, mass := 1, tier := 1, currentMission := none,
                       completedMissions := [], unlocked := s.unlocked,
                       difficulty := 1, timeElapsed := 0, debrisAbsorbed := 0 }
  { s1 with currentMission := startNewMission s1.completedMissions s1.tier }

/-- A concrete game state (mass 10, all achievements already unlocked) used
to instantiate the theorems below on explicit inputs. -/
def demoState : GState :=
  { score := 0, mass := 10, tier := 3, currentMission := none, completedMissions := [],
    unlocked := [true, true, true, true, true, true, true, true, true, true],
    difficulty := 1, timeElapsed := 0, debrisAbsorbed := 0 }

/-! ## Per-frame difficulty (main.js lines 379-388) -/

def updateDifficulty (mass : ℚ) (tier : ℕ) (gameTime : ℚ) : ℚ :=
  let powerLevel : ℚ := mass * tier
  let timeFactor : ℚ := min (gameTime / 60) 5
  1 + (powerLevel / 100) * 0.7 + timeFactor * 0.3

/-! ## BuildingSystem placement (EffectsManager.js) and its caller (main.js)

`Vector3.distanceTo(p) < minDistance` is embedded as the equivalent
squared-distance comparison, avoiding square roots. -/

structure Vec3 where
  x : ℚ
  y : ℚ
  z : ℚ
deriving DecidableEq

def distSq (a b : Vec3) : ℚ :=
  (a.x - b.x) ^ 2 + (a.y - b.y) ^ 2 + (a.z - b.z) ^ 2

def minBuildingDistance : ℚ := 5

/-- `isPositionValid` (EffectsManager.js lines 469-476): false iff some
existing building is strictly closer than `minDistance`. -/
def isPositionValid (buildings : List Vec3) (position : Vec3) (minDistance : ℚ) : Bool :=
  buildings.all fun b => decide (minDistance ^ 2 ≤ distSq b position)

/-- `placeBuilding` (EffectsManager.js lines 368-386), reduced to the
building-position ledger: returns the extended list on success, `none` when
the position is invalid. -/
def placeBuilding (buildings : List Vec3) (position : Vec3) : Option (List Vec3) :=
  if isPositionValid buildings position minBuildingDistance then
    some (buildings ++ [position])
  else none

/-- `tryPlaceBuilding` (main.js lines 812-862): afford check first (early
return, no deduction), then placement; costs are deducted only after a
successful placement. -/
def tryPlaceBuilding (res : Resources) (buildings : List Vec3)
    (cost : List (ResType × ℚ)) (position : Vec3) : Resources × List Vec3 × Bool :=
  if !(canAfford res cost) then (res, buildings, false)
  else
    match placeBuilding buildings position with
    | none => (res, buildings, false)
    | some bs => ((deductCosts res cost).1, bs, true)

/-! ## ObjectPool (GameEngine.js lines 4-46)

Entities are numeric ids; `createFn` hands out fresh ids from `nextId`.
`pool` is the free stack with the list head as the push/pop end (the JS array
end); `active` keeps JS order (push appends, `indexOf`+`splice` removes the
first occurrence).  `resetLog` records, in order, every entity passed to the
caller-supplied `resetFn`. -/

structure ObjectPool where
  pool : List ℕ
  active : List ℕ
  nextId : ℕ
  resetLog : List ℕ
deriving DecidableEq

def createPool (initialSize : ℕ) : ObjectPool :=
  { pool := (List.range initialSize).reverse, active := [], nextId := initialSize,
    resetLog := [] }

def acquire (p : ObjectPool) : ObjectPool × ℕ :=
  match p.pool with
  | obj :: rest => ({ p with pool := rest, active := p.active ++ [obj] }, obj)
  | [] => ({ p with nextId := p.nextId + 1, active := p.active ++ [p.nextId] }, p.nextId)

def release (p : ObjectPool) (obj : ℕ) : ObjectPool :=
  if obj ∈ p.active then
    { p with active := p.active.erase obj, resetLog := p.resetLog ++ [obj],
             pool := obj :: p.pool }
  else p

def releaseAll (p : ObjectPool) : ObjectPool :=
  match h : p.active with
  | [] => p
  | obj :: _ => releaseAll (release p obj)
termination_by p.active.length
decreasing_by
  simp only [release, h, List.mem_cons, true_or, if_true, List.erase_cons_head]
  simp [h]

def acquireN (p : ObjectPool) : ℕ → ObjectPool
  | 0 => p
  | n + 1 => (acquire (acquireN p n)).1

/-! ## Basic ledger lemmas -/

theorem getRes_setRes_self (r : Resources) (t : ResType) (v : ℚ) :
    getRes (setRes r t v) t = v := by
  cases t <;> rfl

theorem getRes_setRes_ne (r : Resources) {t u : ResType} (v : ℚ) (h : u ≠ t) :
    getRes (setRes r t v) u = getRes r u := by
  cases t <;> cases u <;> first | rfl | exact (h rfl).elim

theorem amountFor_cons (c : ResType × ℚ) (cs : List (ResType × ℚ)) (t : ResType) :
    amountFor (c :: cs) t = (if c.1 = t then c.2 else 0) + amountFor cs t := by
  by_cases h : c.1 = t <;> simp [amountFor, List.filter_cons, h]

theorem amountFor_eq_zero {cs : List (ResType × ℚ)} {t : ResType}
    (h : ∀ d ∈ cs, d.1 ≠ t) : amountFor cs t = 0 := by
  induction cs with
  | nil => rfl
  | cons c cs ih =>
    rw [amountFor_cons, if_neg (h c (List.mem_cons_self c cs)), ih fun d hd => h d (List.mem_cons_of_mem c hd)]
    ring

theorem deduct_foldl_spec :
    ∀ (costs : List (ResType × ℚ)) (r : Resources),
      canAfford r costs = true → (costs.map Prod.fst).Nodup →
      ∀ t, getRes (costs.foldl (fun acc c => (removeResource acc c.1 c.2).1) r) t
            = getRes r t - amountFor costs t := by
  intro costs
  induction costs with
  | nil => intro r _ _ t; simp [amountFor]
  | cons c cs ih =>
    intro r haff hnd t
    simp only [canAfford, List.all_cons, Bool.and_eq_true, decide_eq_true_eq] at haff
    obtain ⟨hc, hcs⟩ := haff
    simp only [List.map_cons, List.nodup_cons, List.mem_map] at hnd
    obtain ⟨hkey, hnd'⟩ := hnd
    have hkeys : ∀ d ∈ cs, d.1 ≠ c.1 := by
      intro d hd hdc
      exact hkey ⟨d, hd, hdc⟩
    have hstep : (removeResource r c.1 c.2).1 = setRes r c.1 (getRes r c.1 - c.2) := by
      simp [removeResource, hc]
    have haff' : canAfford (setRes r c.1 (getRes r c.1 - c.2)) cs = true := by
      simp only [canAfford, List.all_eq_true, decide_eq_true_eq] at hcs ⊢
      intro d hd
      rw [getRes_setRes_ne r _ (hkeys d hd)]
      exact hcs d hd
    have := ih (setRes r c.1 (getRes r c.1 - c.2)) haff' hnd' t
    simp only [List.foldl_cons, hstep, this, amountFor_cons]
    by_cases ht : c.1 = t
    · subst ht
      rw [getRes_setRes_self, amountFor_eq_zero hkeys]
      simp
    · rw [getRes_setRes_ne r _ fun h => ht h.symm, if_neg ht]
      ring

/-- C4: if `canAfford(costMap)` is false, `deductCosts(costMap)` returns
failure and leaves every balance unchanged; if it is true, `deductCosts`
subtracts every entry (cost maps have pairwise-distinct keys, as JS object
literals do) and returns success. -/
theorem deductCosts_spec :
    (∀ (r : Resources) (costs : List (ResType × ℚ)),
      canAfford r costs = false → deductCosts r costs = (r, false)) ∧
    (∀ (r : Resources) (costs : List (ResType × ℚ)),
      canAfford r costs = true → (costs.map Prod.fst).Nodup →
      (deductCosts r costs).2 = true ∧
      ∀ t, getRes (deductCosts r costs).1 t = getRes r t - amountFor costs t) := by
  constructor
  · intro r costs h
    simp [deductCosts, h]
  · intro r costs h hnd
    refine ⟨by simp [deductCosts, h], fun t => ?_⟩
    simp only [deductCosts, h, if_true]
    exact deduct_foldl_spec costs r h hnd t

theorem deductCosts_spec_witness :
    canAfford (setRes initialResources .metal 3) [(.metal, 5)] = false ∧
    deductCosts (setRes initialResources .metal 3) [(.metal, 5)]
      = (setRes initialResources .metal 3, false) ∧
    getRes (deductCosts (setRes initialResources .metal 3) [(.metal, 5)]).1 .metal = 3 := by
  have h : canAfford (setRes initialResources .metal 3) [(ResType.metal, (5 : ℚ))] = false := by
    decide
  have h2 := deductCosts_spec.1 (setRes initialResources .metal 3) [(.metal, 5)] h
  exact ⟨h, h2, by rw [h2]; decide⟩

/-- C5 counterexample: the source never caps oxygen at 100.  Starting from
the initial ledger (oxygen = 100), `addResource('oxygen', 1)` — a
non-negative amount — drives oxygen to 101, violating the claimed
`oxygen ≤ 100` invariant. -/
theorem ledger_oxygen_cap_counterexample :
    getRes (addResource initialResources .oxygen 1) .oxygen = 101 ∧
    ¬ getRes (addResource initialResources .oxygen 1) .oxygen ≤ 100 := by
  have h : getRes (addResource initialResources .oxygen 1) .oxygen = 101 := by
    unfold addResource
    rw [getRes_setRes_self]
    norm_num [getRes, initialResources]
  exact ⟨h, by rw [h]; norm_num⟩

/-- C5 (amended): every balance stays non-negative under all four ledger
operations (for non-negative added amounts); `removeResource` never drives a
balance negative and fails without mutation when the balance is below the
requested amount.  The oxygen-≤-100 cap does not hold and is dropped. -/
theorem ledger_nonneg_spec :
    (∀ (r : Resources) (t : ResType) (a : ℚ), 0 ≤ a → NonnegLedger r →
      NonnegLedger (addResource r t a)) ∧
    (∀ (r : Resources) (t : ResType) (a : ℚ), NonnegLedger r →
      NonnegLedger (removeResource r t a).1) ∧
    (∀ (r : Resources) (costs : List (ResType × ℚ)), NonnegLedger r →
      NonnegLedger (deductCosts r costs).1) ∧
    (∀ (r : Resources) (dt rate : ℚ), NonnegLedger r →
      NonnegLedger (drainOxygen r dt rate)) ∧
    (∀ (r : Resources) (t : ResType) (a : ℚ), getRes r t < a →
      removeResource r t a = (r, false)) := by
  have hrem : ∀ (r : Resources) (t : ResType) (a : ℚ), NonnegLedger r →
      NonnegLedger (removeResource r t a).1 := by
    intro r t a hr u
    unfold removeResource
    split_ifs with h
    · by_cases hu : u = t
      · subst hu
        rw [getRes_setRes_self]
        linarith [hr u]
      · rw [getRes_setRes_ne r _ hu]
        exact hr u
    · exact hr u
  refine ⟨?_, hrem, ?_, ?_, ?_⟩
  · intro r t a ha hr u
    unfold addResource
    by_cases hu : u = t
    · subst hu
      rw [getRes_setRes_self]
      have := hr u
      linarith
    · rw [getRes_setRes_ne r _ hu]
      exact hr u
  · intro r costs hr
    unfold deductCosts
    split_ifs with h
    · clear h
      induction costs generalizing r with
      | nil => exact hr
      | cons c cs ih =>
        simp only [List.foldl_cons]
        exact ih _ (hrem r c.1 c.2 hr)
    · exact hr
  · intro r dt rate hr u
    unfold drainOxygen
    by_cases hu : u = ResType.oxygen
    · subst hu
      rw [getRes_setRes_self]
      exact le_max_left 0 _
    · rw [getRes_setRes_ne r _ hu]
      exact hr u
  · intro r t a h
    unfold removeResource
    rw [if_neg (not_le.mpr h)]

theorem ledger_nonneg_spec_witness :
    NonnegLedger (addResource initialResources .plastic 2) ∧
    removeResource initialResources .metal 5 = (initialResources, false) :=
  ⟨ledger_nonneg_spec.1 initialResources .plastic 2 (by norm_num)
      (by intro t; cases t <;> norm_num [getRes, initialResources]),
   ledger_nonneg_spec.2.2.2.2 initialResources .metal 5
      (by norm_num [getRes, initialResources])⟩

/-! ## Tier table (C1) -/

set_option maxHeartbeats 1600000 in
/-- C1: `calculateTier` matches the fixed breakpoint table (1 below mass 3,
then 2/3/4/5/6/7 on [3,8), [8,18), [18,35), [35,60), [60,100), [100,150),
and 8 from 150 up), including the quoted sample points, and is monotone
non-decreasing in mass. -/
theorem calculateTier_spec :
    (∀ m : ℚ,
      (m < 3 → calculateTier m = 1) ∧ (3 ≤ m → m < 8 → calculateTier m = 2) ∧
      (8 ≤ m → m < 18 → calculateTier m = 3) ∧ (18 ≤ m → m < 35 → calculateTier m = 4) ∧
      (35 ≤ m → m < 60 → calculateTier m = 5) ∧ (60 ≤ m → m < 100 → calculateTier m = 6) ∧
      (100 ≤ m → m < 150 → calculateTier m = 7) ∧ (150 ≤ m → calculateTier m = 8)) ∧
    (∀ m m' : ℚ, m ≤ m' → calculateTier m ≤ calculateTier m') ∧
    (calculateTier (29/10) = 1 ∧ calculateTier 3 = 2 ∧ calculateTier 8 = 3 ∧
      calculateTier (179/10) = 3 ∧ calculateTier 18 = 4 ∧ calculateTier 250 = 8) := by
  refine ⟨?_, ?_, ?_⟩
  · intro m
    refine ⟨?_, ?_, ?_, ?_, ?_, ?_, ?_, ?_⟩ <;>
      (intros; unfold calculateTier; split_ifs <;> first | rfl | linarith)
  · intro m m' h
    unfold calculateTier
    split_ifs <;> first | omega | linarith
  · refine ⟨?_, ?_, ?_, ?_, ?_, ?_⟩ <;> norm_num [calculateTier]

theorem calculateTier_spec_witness :
    calculateTier 2 = 1 ∧ calculateTier 10 ≤ calculateTier 20 :=
  ⟨(calculateTier_spec.1 2).1 (by norm_num),
   calculateTier_spec.2.1 10 20 (by norm_num)⟩

/-! ## Difficulty formula (C3) -/

/-- C3: the per-frame difficulty is the pure function
`1 + (mass*tier/100)*0.7 + min(time/60, 5)*0.3` of mass, tier and elapsed
time; it equals exactly 1 at mass 0, tier 1, time 0, and for every time ≥ 300
seconds the time term is the constant 1.5. -/
theorem updateDifficulty_spec :
    updateDifficulty 0 1 0 = 1 ∧
    (∀ (mass : ℚ) (tier : ℕ) (t : ℚ), 300 ≤ t →
      updateDifficulty mass tier t = 1 + (mass * tier / 100) * 0.7 + 3 / 2) ∧
    (∀ (mass : ℚ) (tier : ℕ) (t u : ℚ), 300 ≤ t → 300 ≤ u →
      updateDifficulty mass tier t = updateDifficulty mass tier u) := by
  have key : ∀ (mass : ℚ) (tier : ℕ) (t : ℚ), 300 ≤ t →
      updateDifficulty mass tier t = 1 + (mass * tier / 100) * 0.7 + 3 / 2 := by
    intro m tr t ht
    have h5 : min (t / 60) 5 = (5 : ℚ) := min_eq_right (by linarith)
    simp only [updateDifficulty, h5]
    norm_num
  exact ⟨by norm_num [updateDifficulty], key,
    fun m tr t u ht hu => (key m tr t ht).trans (key m tr u hu).symm⟩

theorem updateDifficulty_spec_witness :
    updateDifficulty 0 1 400 = 1 + ((0 : ℚ) * (1 : ℕ) / 100) * 0.7 + 3 / 2 :=
  updateDifficulty_spec.2.1 0 1 400 (by norm_num)

/-! ## Mission selection (C6) -/

theorem head?_filter_eq_find? {α : Type} (l : List α) (p : α → Bool) :
    (l.filter p).head? = l.find? p := by
  induction l with
  | nil => rfl
  | cons a l ih =>
    by_cases h : p a
    · simp [List.filter_cons, h, List.find?_cons_of_pos]
    · simp only [List.filter_cons, h, Bool.false_eq_true, if_false]
      rw [List.find?_cons_of_neg _ (by simp [h]), ih]

/-- C6: mission selection is the first entry of the fixed catalog (in catalog
order) whose id is not completed and whose difficulty requirement is at most
the current tier, and is `none` when no entry qualifies; as a pure function
of the completed set and tier it is deterministic. -/
theorem startNewMission_spec :
    (∀ (completedMissions : List String) (tier : ℕ),
      startNewMission completedMissions tier
        = getMissionsList.find? (missionAvailable completedMissions tier)) ∧
    (∀ (completedMissions : List String) (tier : ℕ),
      (∀ m ∈ getMissionsList, missionAvailable completedMissions tier m = false) →
      startNewMission completedMissions tier = none) := by
  constructor
  · intro c t
    unfold startNewMission
    exact head?_filter_eq_find? _ _
  · intro c t h
    unfold startNewMission
    rw [List.filter_eq_nil_iff.mpr fun m hm => by simp [h m hm]]
    rfl

theorem startNewMission_spec_witness :
    startNewMission [] 0 = none :=
  startNewMission_spec.2 [] 0 (by decide)

/-! ## Building placement (C7) -/

/-- C7: when the candidate position is strictly within the minimum building
distance of some existing building, `placeBuilding` creates nothing and the
caller `tryPlaceBuilding` deducts no resources — both the ledger and the
building list are unchanged. -/
theorem placeBuilding_spec :
    ∀ (res : Resources) (buildings : List Vec3) (cost : List (ResType × ℚ)) (position : Vec3),
      (∃ b ∈ buildings, distSq b position < minBuildingDistance ^ 2) →
      placeBuilding buildings position = none ∧
      (tryPlaceBuilding res buildings cost position).1 = res ∧
      (tryPlaceBuilding res buildings cost position).2.1 = buildings := by
  intro res bs cost p hex
  obtain ⟨b, hb, hlt⟩ := hex
  have hval : isPositionValid bs p minBuildingDistance = false := by
    unfold isPositionValid
    rw [List.all_eq_false]
    exact ⟨b, hb, by simp [not_le.mpr hlt]⟩
  have hnone : placeBuilding bs p = none := by
    simp [placeBuilding, hval]
  refine ⟨hnone, ?_, ?_⟩ <;>
    · unfold tryPlaceBuilding
      rw [hnone]
      by_cases h : canAfford res cost <;> simp [h]

theorem placeBuilding_spec_witness :
    placeBuilding [⟨0, 0, 0⟩] ⟨1, 0, 0⟩ = none ∧
    (tryPlaceBuilding initialResources [⟨0, 0, 0⟩] [] ⟨1, 0, 0⟩).1 = initialResources :=
  ⟨(placeBuilding_spec initialResources [⟨0, 0, 0⟩] [] ⟨1, 0, 0⟩
      ⟨⟨0, 0, 0⟩, by simp, by norm_num [distSq, minBuildingDistance]⟩).1,
   (placeBuilding_spec initialResources [⟨0, 0, 0⟩] [] ⟨1, 0, 0⟩
      ⟨⟨0, 0, 0⟩, by simp, by norm_num [distSq, minBuildingDistance]⟩).2.1⟩

/-! ## Object pool (C8) -/

theorem acquire_active_length (p : ObjectPool) :
    (acquire p).1.active.length = p.active.length + 1 := by
  rcases hp : p.pool with _ | ⟨o, rest⟩ <;> simp [acquire, hp]

theorem acquire_pool_length (p : ObjectPool) :
    (acquire p).1.pool.length = p.pool.length - 1 := by
  rcases hp : p.pool with _ | ⟨o, rest⟩ <;> simp [acquire, hp]

theorem acquireN_active_length (p : ObjectPool) (n : ℕ) :
    (acquireN p n).active.length = p.active.length + n := by
  induction n with
  | zero => rfl
  | succ n ih =>
    show (acquire (acquireN p n)).1.active.length = _
    rw [acquire_active_length, ih]
    omega

theorem acquireN_pool_length (p : ObjectPool) (n : ℕ) :
    (acquireN p n).pool.length = p.pool.length - n := by
  induction n with
  | zero => rfl
  | succ n ih =>
    show (acquire (acquireN p n)).1.pool.length = _
    rw [acquire_pool_length, ih]
    omega

theorem releaseAll_spec :
    ∀ p : ObjectPool, (releaseAll p).active = [] ∧
      (releaseAll p).resetLog = p.resetLog ++ p.active := by
  have main : ∀ (n : ℕ) (p : ObjectPool), p.active.length = n →
      (releaseAll p).active = [] ∧ (releaseAll p).resetLog = p.resetLog ++ p.active := by
    intro n
    induction n using Nat.strong_induction_on with
    | _ n ih =>
      intro p hlen
      rw [releaseAll.eq_def]
      split
      · next heq => simp [heq]
      · next obj rest heq =>
        have hmem : obj ∈ p.active := heq ▸ List.mem_cons_self obj rest
        have hrel : release p obj
            = { p with active := p.active.erase obj, resetLog := p.resetLog ++ [obj],
                       pool := obj :: p.pool } := by
          simp [release, hmem]
        have herase : p.active.erase obj = rest := by
          rw [heq]
          exact List.erase_cons_head obj rest
        have hlt : rest.length < n := by
          rw [← hlen, heq]
          simp
        obtain ⟨ih1, ih2⟩ := ih rest.length hlt (release p obj)
          (by rw [hrel]; simp only [herase])
        refine ⟨ih1, ?_⟩
        rw [ih2, hrel, heq]
        simp
  intro p
  exact main p.active.length p rfl

/-- C8: for a pool pre-warmed with k entities, n acquires with no releases
leave the active count at n and the free count at max(k − n, 0) (the pool
grows once the free stack is empty); `releaseAll` empties the active set and
passes every previously active entity through the reset function; `release`
of a non-active entity is a no-op. -/
theorem objectPool_spec :
    (∀ k n : ℕ, (acquireN (createPool k) n).active.length = n ∧
      ((acquireN (createPool k) n).pool.length : ℤ) = max ((k : ℤ) - (n : ℤ)) 0) ∧
    (∀ p : ObjectPool, (releaseAll p).active = [] ∧
      (releaseAll p).resetLog = p.resetLog ++ p.active) ∧
    (∀ (p : ObjectPool) (obj : ℕ), obj ∉ p.active → release p obj = p) := by
  refine ⟨?_, releaseAll_spec, ?_⟩
  · intro k n
    have h1 : (createPool k).active.length = 0 := rfl
    have h2 : (createPool k).pool.length = k := by
      simp [createPool]
    constructor
    · rw [acquireN_active_length, h1]
      omega
    · have := acquireN_pool_length (createPool k) n
      rw [h2] at this
      rw [this]
      omega
  · intro p obj h
    simp [release, h]

theorem objectPool_spec_witness :
    release (createPool 2) 5 = createPool 2 :=
  objectPool_spec.2.2 (createPool 2) 5 (by decide)

/-! ## Achievement engine lemmas (C2, C9, C10) -/

theorem getD_set_true_self : ∀ (l : List Bool) (i : ℕ), (l.set i true).getD i true = true := by
  intro l
  induction l with
  | nil => intro i; rfl
  | cons b tl ih =>
    intro i
    cases i with
    | zero => rfl
    | succ i => exact ih i

theorem getD_set_ne : ∀ (l : List Bool) (i j : ℕ) (v : Bool), j ≠ i →
    (l.set i v).getD j true = l.getD j true := by
  intro l
  induction l with
  | nil => intro i j v _; rfl
  | cons b tl ih =>
    intro i j v hji
    cases i with
    | zero =>
      cases j with
      | zero => exact (hji rfl).elim
      | succ j => rfl
    | succ i =>
      cases j with
      | zero => rfl
      | succ j => exact ih i j v fun h => hji (congrArg Nat.succ h)

theorem count_false_set_true : ∀ (l : List Bool) (i : ℕ), l.getD i true = false →
    (l.set i true).count false + 1 = l.count false := by
  intro l
  induction l with
  | nil => intro i h; simp [List.getD] at h
  | cons b tl ih =>
    intro i h
    cases i with
    | zero =>
      have hb : b = false := h
      subst hb
      simp [List.count_cons]
    | succ i =>
      have h' : tl.getD i true = false := h
      have := ih i h'
      simp only [List.set, List.count_cons]
      omega

theorem lockedCount_unlockBonus {s : GState} {i : ℕ} (h : s.unlocked.getD i true = false) :
    lockedCount (unlockBonus s i) + 1 = lockedCount s :=
  count_false_set_true s.unlocked i h

theorem unlockBonus_getD {s : GState} {i j : ℕ} (h : s.unlocked.getD j true = true) :
    (unlockBonus s i).unlocked.getD j true = true := by
  show (s.unlocked.set i true).getD j true = true
  by_cases hji : j = i
  · subst hji
    exact getD_set_true_self _ _
  · rw [getD_set_ne _ _ _ _ hji]
    exact h

theorem checkStep_unlocked_mono (nested : GState → GState)
    (hn : ∀ t j, t.unlocked.getD j true = true → (nested t).unlocked.getD j true = true) :
    ∀ (todo : List ℕ) (s : GState) (j : ℕ), s.unlocked.getD j true = true →
      ((checkStep nested s todo).1).unlocked.getD j true = true := by
  intro todo
  induction todo with
  | nil => intro s j h; exact h
  | cons i rest ih =>
    intro s j h
    simp only [checkStep]
    split_ifs with hc
    · exact ih _ j (hn _ j (unlockBonus_getD h))
    · exact ih s j h

theorem checkStep_lockedCount_le (nested : GState → GState)
    (hn : ∀ t, lockedCount (nested t) ≤ lockedCount t) :
    ∀ (todo : List ℕ) (s : GState),
      lockedCount (checkStep nested s todo).1 ≤ lockedCount s := by
  intro todo
  induction todo with
  | nil => intro s; exact le_refl _
  | cons i rest ih =>
    intro s
    simp only [checkStep]
    split_ifs with hc
    · dsimp only
      have hfalse : s.unlocked.getD i true = false := by
        simp only [Bool.and_eq_true, Bool.not_eq_true'] at hc
        exact hc.1
      have h1 := lockedCount_unlockBonus hfalse
      have h2 := hn (unlockBonus s i)
      have h3 := ih (nested (unlockBonus s i))
      omega
    · exact ih s

theorem checkStep_score (nested : GState → GState)
    (hn : ∀ t, (nested t).score + 50 * (lockedCount (nested t) : ℚ)
          = t.score + 50 * (lockedCount t : ℚ)) :
    ∀ (todo : List ℕ) (s : GState),
      (checkStep nested s todo).1.score + 50 * (lockedCount (checkStep nested s todo).1 : ℚ)
        = s.score + 50 * (lockedCount s : ℚ) := by
  intro todo
  induction todo with
  | nil => intro s; rfl
  | cons i rest ih =>
    intro s
    simp only [checkStep]
    split_ifs with hc
    · have hfalse : s.unlocked.getD i true = false := by
        simp only [Bool.and_eq_true, Bool.not_eq_true'] at hc
        exact hc.1
      have h1 : (lockedCount (unlockBonus s i) : ℚ) + 1 = (lockedCount s : ℚ) := by
        exact_mod_cast lockedCount_unlockBonus hfalse
      have h2 := hn (unlockBonus s i)
      have h3 := ih (nested (unlockBonus s i))
      have h4 : (unlockBonus s i).score = s.score + 50 := rfl
      rw [h3, h2, h4]
      linarith
    · exact ih s

theorem checkStep_fields (nested : GState → GState)
    (hn : ∀ t, (nested t).mass = t.mass ∧ (nested t).tier = t.tier) :
    ∀ (todo : List ℕ) (s : GState),
      (checkStep nested s todo).1.mass = s.mass ∧ (checkStep nested s todo).1.tier = s.tier := by
  intro todo
  induction todo with
  | nil => intro s; exact ⟨rfl, rfl⟩
  | cons i rest ih =>
    intro s
    simp only [checkStep]
    split_ifs with hc
    · obtain ⟨hm, ht⟩ := ih (nested (unlockBonus s i))
      obtain ⟨hm', ht'⟩ := hn (unlockBonus s i)
      exact ⟨hm.trans hm', ht.trans ht'⟩
    · exact ih s

theorem checkStep_notin_batch (nested : GState → GState)
    (hn : ∀ t j, t.unlocked.getD j true = true → (nested t).unlocked.getD j true = true) :
    ∀ (todo : List ℕ) (s : GState) (j : ℕ), s.unlocked.getD j true = true →
      j ∉ (checkStep nested s todo).2 := by
  intro todo
  induction todo with
  | nil => intro s j _ hmem; exact List.not_mem_nil j hmem
  | cons i rest ih =>
    intro s j h
    simp only [checkStep]
    split_ifs with hc
    · dsimp only
      have hfalse : s.unlocked.getD i true = false := by
        simp only [Bool.and_eq_true, Bool.not_eq_true'] at hc
        exact hc.1
      intro hmem
      rcases List.mem_cons.mp hmem with hji | hmem'
      · subst hji
        rw [h] at hfalse
        exact Bool.true_eq_false.mp hfalse
      · exact ih _ j (hn _ j (unlockBonus_getD h)) hmem'
    · exact ih s j h

theorem checkStep_batch_mem (nested : GState → GState)
    (hn : ∀ t j, t.unlocked.getD j true = true → (nested t).unlocked.getD j true = true) :
    ∀ (todo : List ℕ) (s : GState) (j : ℕ), j ∈ (checkStep nested s todo).2 →
      j ∈ todo ∧ s.unlocked.getD j true = false ∧
        ((checkStep nested s todo).1).unlocked.getD j true = true := by
  intro todo
  induction todo with
  | nil => intro s j hmem; exact absurd hmem (List.not_mem_nil j)
  | cons i rest ih =>
    intro s j hmem
    simp only [checkStep] at hmem ⊢
    split_ifs at hmem ⊢ with hc
    · dsimp only at hmem ⊢
      have hfalse : s.unlocked.getD i true = false := by
        simp only [Bool.and_eq_true, Bool.not_eq_true'] at hc
        exact hc.1
      have hcur : s.unlocked.getD j true = false := by
        by_contra hne
        have htrue : s.unlocked.getD j true = true := by
          cases hgd : s.unlocked.getD j true with
          | true => rfl
          | false => exact absurd hgd hne
        rcases List.mem_cons.mp hmem with hji | hmem'
        · subst hji
          rw [htrue] at hfalse
          exact Bool.true_eq_false.mp hfalse
        · exact checkStep_notin_batch nested hn rest _ j
            (hn _ j (unlockBonus_getD htrue)) hmem'
      refine ⟨?_, hcur, ?_⟩
      · rcases List.mem_cons.mp hmem with hji | hmem'
        · exact hji ▸ List.mem_cons_self i rest
        · exact List.mem_cons_of_mem i (ih _ j hmem').1
      · rcases List.mem_cons.mp hmem with hji | hmem'
        · subst hji
          refine checkStep_unlocked_mono nested hn rest _ j (hn _ j ?_)
          show (s.unlocked.set j true).getD j true = true
          exact getD_set_true_self _ _
        · exact (ih _ j hmem').2.2
    · obtain ⟨h1, h2, h3⟩ := ih s j hmem
      exact ⟨List.mem_cons_of_mem i h1, h2, h3⟩

theorem checkStep_batch_nodup (nested : GState → GState)
    (hn : ∀ t j, t.unlocked.getD j true = true → (nested t).unlocked.getD j true = true) :
    ∀ (todo : List ℕ) (s : GState), todo.Nodup → (checkStep nested s todo).2.Nodup := by
  intro todo
  induction todo with
  | nil => intro s _; exact List.nodup_nil
  | cons i rest ih =>
    intro s hnd
    obtain ⟨hi, hrest⟩ := List.nodup_cons.mp hnd
    simp only [checkStep]
    split_ifs with hc
    · dsimp only
      refine List.nodup_cons.mpr ⟨?_, ih _ hrest⟩
      intro hmem
      exact hi (checkStep_batch_mem nested hn rest _ i hmem).1
    · exact ih s hrest

/-! Lifting the `checkStep` lemmas to the fuel-indexed `checkA`. -/

theorem checkA_unlocked_mono : ∀ (fuel : ℕ) (s : GState) (j : ℕ),
    s.unlocked.getD j true = true → ((checkA fuel s).1).unlocked.getD j true = true := by
  intro fuel
  induction fuel with
  | zero => intro s j h; exact h
  | succ fuel ih =>
    intro s j h
    exact checkStep_unlocked_mono _ (fun t k hk => ih t k hk) _ s j h

theorem checkA_lockedCount_le : ∀ (fuel : ℕ) (s : GState),
    lockedCount (checkA fuel s).1 ≤ lockedCount s := by
  intro fuel
  induction fuel with
  | zero => intro s; exact le_refl _
  | succ fuel ih =>
    intro s
    exact checkStep_lockedCount_le _ (fun t => ih t) _ s

theorem checkA_score : ∀ (fuel : ℕ) (s : GState),
    (checkA fuel s).1.score + 50 * (lockedCount (checkA fuel s).1 : ℚ)
      = s.score + 50 * (lockedCount s : ℚ) := by
  intro fuel
  induction fuel with
  | zero => intro s; rfl
  | succ fuel ih =>
    intro s
    exact checkStep_score _ (fun t => ih t) _ s

theorem checkA_fields : ∀ (fuel : ℕ) (s : GState),
    (checkA fuel s).1.mass = s.mass ∧ (checkA fuel s).1.tier = s.tier := by
  intro fuel
  induction fuel with
  | zero => intro s; exact ⟨rfl, rfl⟩
  | succ fuel ih =>
    intro s
    exact checkStep_fields _ (fun t => ih t) _ s

/-! Stabilisation: the fuel is irrelevant once it exceeds the number of
locked achievements — the termination argument for the JS mutual
recursion. -/

theorem checkStep_congr (n1 n2 : GState → GState)
    (h1 : ∀ t, lockedCount (n1 t) ≤ lockedCount t) :
    ∀ (todo : List ℕ) (s : GState),
      (∀ t, lockedCount t < lockedCount s → n1 t = n2 t) →
      checkStep n1 s todo = checkStep n2 s todo := by
  intro todo
  induction todo with
  | nil => intro s _; rfl
  | cons i rest ih =>
    intro s hs
    simp only [checkStep]
    split_ifs with hc
    · have hfalse : s.unlocked.getD i true = false := by
        simp only [Bool.and_eq_true, Bool.not_eq_true'] at hc
        exact hc.1
      have hu := lockedCount_unlockBonus hfalse
      have hlt : lockedCount (unlockBonus s i) < lockedCount s := by omega
      have heqn : n1 (unlockBonus s i) = n2 (unlockBonus s i) := hs _ hlt
      have hlt2 : lockedCount (n1 (unlockBonus s i)) < lockedCount s :=
        lt_of_le_of_lt (h1 _) hlt
      have hrec : checkStep n1 (n1 (unlockBonus s i)) rest
          = checkStep n2 (n1 (unlockBonus s i)) rest :=
        ih _ fun t ht => hs t (lt_trans ht hlt2)
      rw [← heqn, hrec]
    · exact ih s hs

theorem checkA_stable : ∀ (n f g : ℕ) (s : GState), lockedCount s = n →
    n < f → n < g → checkA f s = checkA g s := by
  intro n
  induction n using Nat.strong_induction_on with
  | _ n ih =>
    intro f g s hs hf hg
    obtain ⟨f', rfl⟩ : ∃ f', f = f' + 1 := ⟨f - 1, by omega⟩
    obtain ⟨g', rfl⟩ : ∃ g', g = g' + 1 := ⟨g - 1, by omega⟩
    simp only [checkA]
    refine checkStep_congr _ _ (fun t => checkA_lockedCount_le f' t) _ s ?_
    intro t ht
    have heq := ih (lockedCount t) (hs ▸ ht) f' g' t rfl (by omega) (by omega)
    rw [heq]

theorem checkA_eq_checkAchievements {f : ℕ} (s : GState) (h : lockedCount s < f) :
    checkA f s = checkAchievements s :=
  checkA_stable (lockedCount s) f (lockedCount s + 1) s rfl h (by omega)

/-- C10: the `addScore`/`checkAchievements` mutual recursion terminates —
every nested re-entry happens only after an achievement flag flips, so any
fuel above the locked-achievement count yields the same result — and across
the whole cascade each achievement's 50-point bonus is added exactly once
per false→true transition: the score plus 50 per still-locked achievement is
conserved by `checkAchievements`, and `addScore s p` adds exactly `p` on top
of that conserved quantity. -/
theorem addScore_checkAchievements_spec :
    (∀ (s : GState) (f g : ℕ), lockedCount s < f → lockedCount s < g →
      checkA f s = checkA g s) ∧
    (∀ s : GState,
      (checkAchievements s).1.score + 50 * (lockedCount (checkAchievements s).1 : ℚ)
        = s.score + 50 * (lockedCount s : ℚ)) ∧
    (∀ (s : GState) (p : ℚ),
      (addScore s p).score + 50 * (lockedCount (addScore s p) : ℚ)
        = s.score + p + 50 * (lockedCount s : ℚ)) := by
  refine ⟨?_, ?_, ?_⟩
  · intro s f g hf hg
    exact (checkA_eq_checkAchievements s hf).trans (checkA_eq_checkAchievements s hg).symm
  · intro s
    exact checkA_score (lockedCount s + 1) s
  · intro s p
    have h := checkA_score (lockedCount { s with score := s.score + p } + 1)
      { s with score := s.score + p }
    exact h

theorem addScore_checkAchievements_spec_witness :
    checkA 1 demoState = checkA 2 demoState :=
  addScore_checkAchievements_spec.1 demoState 1 2 (by decide) (by decide)

/-- C9: achievement flags never go back from unlocked to locked —
`checkAchievements` preserves every raised flag and the game `reset`
keeps the achievements array untouched — and an achievement enters the
newly-unlocked batch only at its first false→true transition: an already
unlocked achievement is never reported again, a batch has no duplicates,
membership in a batch means the flag was down before the call and up after
it, and each transition contributes its 50-point bonus exactly once (the
score plus 50 per locked achievement is conserved). -/
theorem achievements_persist_spec :
    (∀ s : GState, (reset s).unlocked = s.unlocked) ∧
    (∀ (s : GState) (j : ℕ), s.unlocked.getD j true = true →
      ((checkAchievements s).1).unlocked.getD j true = true) ∧
    (∀ (s : GState) (j : ℕ), s.unlocked.getD j true = true →
      j ∉ (checkAchievements s).2) ∧
    (∀ s : GState, (checkAchievements s).2.Nodup) ∧
    (∀ (s : GState) (j : ℕ), j ∈ (checkAchievements s).2 →
      s.unlocked.getD j true = false ∧
        ((checkAchievements s).1).unlocked.getD j true = true) ∧
    (∀ s : GState,
      (checkAchievements s).1.score + 50 * (lockedCount (checkAchievements s).1 : ℚ)
        = s.score + 50 * (lockedCount s : ℚ)) := by
  refine ⟨fun s => rfl, ?_, ?_, ?_, ?_, ?_⟩
  · intro s j h
    exact checkA_unlocked_mono (lockedCount s + 1) s j h
  · intro s j h
    show j ∉ (checkA (lockedCount s + 1) s).2
    simp only [checkA]
    exact checkStep_notin_batch _ (fun t k hk => checkA_unlocked_mono (lockedCount s) t k hk)
      _ s j h
  · intro s
    show (checkA (lockedCount s + 1) s).2.Nodup
    simp only [checkA]
    exact checkStep_batch_nodup _
      (fun t k hk => checkA_unlocked_mono (lockedCount s) t k hk) _ s (List.nodup_range _)
  · intro s j hmem
    have h := checkStep_batch_mem (fun t => (checkA (lockedCount s) t).1)
      (fun t k hk => checkA_unlocked_mono (lockedCount s) t k hk) (List.range numAch) s j
    exact ⟨(h hmem).2.1, (h hmem).2.2⟩
  · intro s
    exact checkA_score (lockedCount s + 1) s

theorem achievements_persist_spec_witness :
    ((checkAchievements demoState).1).unlocked.getD 0 true = true :=
  achievements_persist_spec.2.1 demoState 0 (by decide)

/-- C2: `recycle` on mass ≤ 1 is a no-op returning 0; otherwise it removes
`floor(mass × 0.25)` from the mass, floors the result at 1, recomputes the
tier from the new mass, awards removed × 10 points through `addScore` (any
further score change is exactly the 50-point bonus per achievement the
award unlocks), and returns that point value. -/
theorem recycle_spec :
    (∀ s : GState, s.mass ≤ 1 → recycle s = (s, 0)) ∧
    (∀ s : GState, 1 < s.mass →
      (recycle s).2 = (⌊s.mass * 0.25⌋ : ℚ) * 10 ∧
      (recycle s).1.mass = max 1 (s.mass - (⌊s.mass * 0.25⌋ : ℚ)) ∧
      (recycle s).1.tier = calculateTier (max 1 (s.mass - (⌊s.mass * 0.25⌋ : ℚ))) ∧
      (recycle s).1.score + 50 * (lockedCount (recycle s).1 : ℚ)
        = s.score + (⌊s.mass * 0.25⌋ : ℚ) * 10 + 50 * (lockedCount s : ℚ)) := by
  constructor
  · intro s h
    unfold recycle
    rw [if_pos h]
  · intro s h
    have hnle : ¬ s.mass ≤ 1 := not_le.mpr h
    unfold recycle
    rw [if_neg hnle]
    exact ⟨rfl, (checkA_fields _ _).1, (checkA_fields _ _).2, checkA_score _ _⟩

theorem recycle_spec_witness :
    (1 : ℚ) < demoState.mass ∧ (recycle demoState).2 = 20 ∧
      (recycle demoState).1.mass = 8 ∧ (recycle demoState).1.tier = 3 := by
  have hm : (1 : ℚ) < demoState.mass := by norm_num [demoState]
  have h := recycle_spec.2 demoState hm
  have hfl : (⌊demoState.mass * 0.25⌋ : ℤ) = 2 := by norm_num [demoState]
  have hmx : max 1 (demoState.mass - ((2 : ℤ) : ℚ)) = 8 := by norm_num [demoState]
  refine ⟨hm, ?_, ?_, ?_⟩
  · rw [h.1, hfl]
    norm_num
  · rw [h.2.1, hfl, hmx]
  · rw [h.2.2.1, hfl, hmx]
    norm_num [calculateTier]
